import Mathlib

/-!
Verification of the morpho-gpt orchestration layer against its interface
specification.  The TypeScript sources (src/services/pinecone.ts and
src/read/routeDiscord.ts) are shallowly embedded below: pure computations
become Lean functions, the external collaborators (embedding endpoint,
completion endpoint, vector store, JSON serialisation) become explicit
function parameters or value parameters, and JavaScript numbers that are
only carried around opaquely (similarity scores, embedding components) are
modelled as `Int`, since the code never computes with them.
-/

namespace Morpho

/-! ## Document-link extraction (pinecone.ts, `processDocument`, lines 183-184) -/

/-- The literal part of the JavaScript regex `/Link: (.+)/` used by
`processDocument` at pinecone.ts:183. -/
def linkMarker : List Char := ['L', 'i', 'n', 'k', ':', ' ']

/-- Greedy capture of `(.+)` in a JavaScript regex without the `s` flag:
the maximal run of characters that are not line terminators.  We model the
line terminators `'\n'` and `'\r'` (JavaScript additionally excludes
U+2028 and U+2029, which do not occur in the texts considered here). -/
def takeLineRest : List Char → List Char
  | [] => []
  | c :: cs => if c = '\n' ∨ c = '\r' then [] else c :: takeLineRest cs

/-- Model of `text.match(/Link: (.+)/)` (pinecone.ts:183): the regex engine tries
every position left to right; at the first position where the literal
`Link: ` matches and at least one non-terminator character follows, it
returns the greedy capture group.  A position where `Link: ` matches but
the capture would be empty is skipped and scanning resumes at the next
position, exactly as in JavaScript. -/
def findLinkMatch : List Char → Option (List Char)
  | [] => none
  | c :: cs =>
    if linkMarker.isPrefixOf (c :: cs) then
      if (takeLineRest ((c :: cs).drop linkMarker.length)).isEmpty then findLinkMatch cs
      else some (takeLineRest ((c :: cs).drop linkMarker.length))
    else findLinkMatch cs

/-- pinecone.ts:183-184:
`const documentLinkMatch = text.match(/Link: (.+)/);`
`const documentLink = documentLinkMatch ? documentLinkMatch[1] : "";` -/
def extractDocumentLink (text : String) : String :=
  match findLinkMatch text.data with
  | some captured => String.mk captured
  | none => ""

/-- Builds a text from its list of lines, separated by `'\n'` (the inverse
of splitting a text into lines); used to quantify over texts line-wise. -/
def joinLines : List (List Char) → List Char
  | [] => []
  | [l] => l
  | l :: l' :: ls => l ++ '\n' :: joinLines (l' :: ls)

/-! ## Query-response data model (pinecone.ts, `interfaces` and `formatPineconeResponse`) -/

/-- The metadata object attached to a scored vector.  The two fields the code
probes for (`pageContent`, `docLink`) are modelled as optional fields; a field
being `none` models the key being absent from the JavaScript object.  `extra`
carries all other keys of the raw metadata object (as key/value pairs), so
that "normalize metadata to exactly pageContent and docLink" is observable. -/
structure MatchMetadata where
  pageContent : Option String
  docLink : Option String
  extra : List (String × String)
deriving DecidableEq, Repr

/-- A scored vector as returned by the Pinecone query (`MyScoredVector` in
interfaces, plus the raw shape).  Scores and raw embedding values are opaque
payloads here (never computed with), so they are modelled over `Int`. -/
structure MyScoredVector where
  id : String
  score : Option Int
  values : Option (List Int)
  metadata : Option MatchMetadata
deriving DecidableEq, Repr

/-- The query-response shape: the optional match list (`matches` in
TypeScript; primed here because `matches` is a reserved Lean token) and the
optional namespace tag (`namespace` in TypeScript; named `ns` here because
`namespace` is a Lean keyword).  The same structure serves as the raw
Pinecone response and as the formatted `QueryResponse`, which differ in
TypeScript only by the static type given to the metadata. -/
structure QueryResponse where
  matches' : Option (List MyScoredVector)
  ns : Option String
deriving DecidableEq, Repr

/-- The per-match arrow function inside `formatPineconeResponse`
(pinecone.ts:65-81): if the metadata exists and contains both `pageContent`
and `docLink` keys, rebuild the match with metadata holding exactly those two
fields; otherwise return the match unchanged. -/
def formatMatch (m : MyScoredVector) : MyScoredVector :=
  match m.metadata with
  | some md =>
      if md.pageContent.isSome && md.docLink.isSome then
        { m with metadata := some { pageContent := md.pageContent,
                                    docLink := md.docLink, extra := [] } }
      else m
  | none => m

/-- Model of `formatPineconeResponse` (pinecone.ts:61-87): maps the per-match reshaping
over the (optional) match list and copies the namespace tag. -/
def formatPineconeResponse (pineconeResponse : QueryResponse) : QueryResponse :=
  { matches' := pineconeResponse.matches'.map fun ms => ms.map formatMatch
    ns := pineconeResponse.ns }

/-! ## Query pipeline (pinecone.ts, `queryLanguageModelWithPineconeResponse`) -/

/-- The answer shape returned on the success path (answer text plus the
document links, one per match). -/
structure AnswerResult where
  answer : String
  documentLinks : List String
deriving DecidableEq, Repr

/-- The fixed system instruction prepended to the question
(pinecone.ts:104-105). -/
def instructions : String :=
  "You\x27re an AI assistant. Based on the following excerpts from a long document, provide a conversational answer to the question asked. If the answer isn\x27t in the context, simply respond with \x27Hmm, I\x27m not sure.\x27 Don\x27t invent an answer. If the question isn\x27t related to the context, state that you are programmed to answer questions relevant to the given context. Remember, you cannot use images or visual content to form your answer. Do the answer in less than 2000 characters."

/-- pinecone.ts:106: the combined prompt `instructions + "\n\n" + question`. -/
def preparedQuestion (question : String) : String :=
  instructions ++ "\n\n" ++ question

/-- Model of `queryLanguageModelWithPineconeResponse` (pinecone.ts:96-127).  The
completion endpoint (`chain.call` on the stuffed context document) is the
external parameter `chainCall`, taking the concatenated page content and the
prepared question to the completion text.  The result is the returned value
(`none` models the `undefined` fall-through of the zero-match branch)
together with the number of completion-endpoint calls made. -/
def queryLanguageModelWithPineconeResponse (chainCall : String → String → String)
    (queryResponse : QueryResponse) (question : String) :
    Option AnswerResult × Nat :=
  match queryResponse.matches' with
  | some ms =>
      if ms.length ≠ 0 then
        let concatenatedPageContent :=
          String.intercalate " " (ms.map fun m => (m.metadata.bind MatchMetadata.pageContent).getD "")
        let documentLinks := ms.map fun m => (m.metadata.bind MatchMetadata.docLink).getD ""
        (some { answer := chainCall concatenatedPageContent (preparedQuestion question),
                documentLinks := documentLinks }, 1)
      else (none, 0)
  | none => (none, 0)

/-- Two sample matches used as the concrete input of the claim C6 witness;
the second one lacks a `docLink`. -/
def sampleMatches : List MyScoredVector :=
  [{ id := "m1", score := some 2, values := none,
     metadata := some { pageContent := some "alpha", docLink := some "L1", extra := [] } },
   { id := "m2", score := some 1, values := none,
     metadata := some { pageContent := some "beta", docLink := none, extra := [] } }]

/-! ## Ingestion (pinecone.ts, `processDocument` and `upsertVectors`) -/

/-- The chunk location produced by the text splitter
(`chunk.metadata.loc`, a lines-from/to record). -/
structure ChunkLoc where
  lineFrom : Nat
  lineTo : Nat
deriving DecidableEq, Repr

/-- The metadata the text splitter attaches to a chunk (the splitter sets
exactly the `loc` field). -/
structure ChunkMetadata where
  loc : ChunkLoc
deriving DecidableEq, Repr

/-- A text chunk produced by `RecursiveCharacterTextSplitter.createDocuments`
(an external library; chunking itself is not modelled, chunks are inputs). -/
structure Chunk where
  pageContent : String
  metadata : ChunkMetadata
deriving DecidableEq, Repr

/-- The metadata object of an upserted vector record (pinecone.ts:198-204):
the spread of the chunk metadata with `loc` overridden by its stringified
form, plus `pageContent`, `txtPath` and `docLink`. -/
structure VectorMetadata where
  loc : String
  pageContent : String
  txtPath : String
  docLink : String
deriving DecidableEq, Repr

/-- A vector record to upsert (`Vector` in interfaces).  Embedding components
are opaque payloads, modelled as `Int`. -/
structure Vector where
  id : String
  values : List Int
  metadata : VectorMetadata
deriving DecidableEq, Repr

/-- Model of `upsertVectors` (pinecone.ts:214-223): the list of the batches issued by
the loop `for (let i = 0; i < vectors.length; i += batchSize)` with
`batchSize = 100` and batch `vectors.slice(i, i + batchSize)`, in issue
order (the loop awaits one upsert call per batch, sequentially). -/
def upsertBatches : List Vector → List (List Vector)
  | [] => []
  | v :: vs => ((v :: vs).take 100) :: upsertBatches ((v :: vs).drop 100)
termination_by l => l.length
decreasing_by
  simp [List.length_drop]
  omega

/-- Sample vector records used in concrete witnesses. -/
def sampleVectorA : Vector :=
  { id := "doc_0", values := [1, 2],
    metadata := { loc := "l0", pageContent := "p0", txtPath := "doc", docLink := "L" } }

/-- Second sample vector record used in concrete witnesses. -/
def sampleVectorB : Vector :=
  { id := "doc_1", values := [3, 4],
    metadata := { loc := "l1", pageContent := "p1", txtPath := "doc", docLink := "L" } }

/-- The pure core of `processDocument` (pinecone.ts:176-206).  The external
collaborators are parameters: `stringifyLoc` models `JSON.stringify` applied
to the chunk location, `chunks` is the output of the external text splitter,
and `embeddingsArrays` is the output of the external embedding endpoint
(order-preserving, one embedding per chunk).  The function builds the vector
records `chunks.map((chunk, idx) => ...)`, with `embeddingsArrays[idx]`
modelled by `getD idx []` (JavaScript yields `undefined` out of range; the
claims only concern indices backed by both lists). -/
def processDocumentVectors (stringifyLoc : ChunkLoc → String) (txtPath text : String)
    (chunks : List Chunk) (embeddingsArrays : List (List Int)) : List Vector :=
  let documentLink := extractDocumentLink text
  chunks.enum.map fun p =>
    { id := txtPath ++ "_" ++ toString p.1
      values := embeddingsArrays.getD p.1 []
      metadata := { loc := stringifyLoc p.2.metadata.loc
                    pageContent := p.2.pageContent
                    txtPath := txtPath
                    docLink := documentLink } }

/-! ## Discord command handler (routeDiscord.ts, `handleReadCommand`) -/

/-- routeDiscord.ts:23-25: `[...new Set(result.documentLinks)]`.  A JavaScript
`Set` iterates in insertion order, so spreading the set of a list yields the
distinct elements in order of first occurrence: each element is kept and its
later duplicates are dropped from the remainder. -/
def setDedup : List String → List String
  | [] => []
  | x :: xs => x :: setDedup (xs.filter fun y => y != x)
termination_by l => l.length
decreasing_by
  simp only [List.length_cons]
  exact Nat.lt_succ_of_le (List.length_filter_le _ _)

/-- routeDiscord.ts:26: `distinctDocumentLinks.slice(0, 3)`. -/
def topThreeLinks (documentLinks : List String) : List String :=
  (setDedup documentLinks).take 3

/-- routeDiscord.ts:29-33: one line per link, rendered as
`**Link N:** <url>` with 1-based `N`, joined by `"\n"`. -/
def renderLinksString (documentLinks : List String) : String :=
  String.intercalate "\n"
    (documentLinks.enum.map fun p => "**Link " ++ toString (p.1 + 1) ++ ":** <" ++ p.2 ++ ">")

/-- Model of `handleReadCommand` (routeDiscord.ts:7-48).  The awaited pipeline call
`queryPineconeVectorStoreAndQueryLLM` (defined outside this repository's
sources, in `utils`) is passed in as its outcome: `Except.error e` models
the call (or any step of the try block) throwing `e`, `Except.ok none`
models it returning `undefined`, `Except.ok (some r)` an answer result.
The value is the pair (messages sent to the channel, console-error log
entries); `console.error("Error:", error)` becomes the log entry
`"Error: " ++ e`. -/
def handleReadCommand (pipelineResult : Except String (Option AnswerResult)) :
    List String × List String :=
  match pipelineResult with
  | Except.error e =>
      (["An error occurred while processing your request."], ["Error: " ++ e])
  | Except.ok none => (["No results found for your query."], [])
  | Except.ok (some result) =>
      (["\n**Answer:**\n " ++ result.answer ++ "\n**Useful resources:**\n"
          ++ renderLinksString (topThreeLinks result.documentLinks)], [])

/-! ## Lemmas and claim theorems -/
lemma findLinkMatch_cons (c : Char) (cs : List Char) :
    findLinkMatch (c :: cs) =
      if linkMarker.isPrefixOf (c :: cs) then
        if (takeLineRest ((c :: cs).drop linkMarker.length)).isEmpty then findLinkMatch cs
        else some (takeLineRest ((c :: cs).drop linkMarker.length))
      else findLinkMatch cs := by
  rfl

lemma isPrefixOf_eq (p l : List Char) : p.isPrefixOf l = true ↔ p <+: l :=
  List.isPrefixOf_iff_prefix

lemma takeLineRest_append_newline (r t : List Char) :
    takeLineRest (r ++ '\n' :: t) = takeLineRest r := by
  induction r with
  | nil => simp [takeLineRest]
  | cons c cs ih =>
      by_cases h : c = '\n' ∨ c = '\r' <;> simp [takeLineRest, h, ih]

lemma takeLineRest_of_no_terminator (x : List Char)
    (hx : ∀ c ∈ x, c ≠ '\n' ∧ c ≠ '\r') : takeLineRest x = x := by
  induction x with
  | nil => rfl
  | cons c cs ih =>
      have h := hx c (by simp)
      simp [takeLineRest, h.1, h.2, ih fun d hd => hx d (by simp [hd])]

lemma prefix_of_append_newline (p : List Char) (hp : '\n' ∉ p) :
    ∀ (l t : List Char), p <+: l ++ '\n' :: t → p <+: l := by
  induction p with
  | nil => intro l t _; exact List.nil_prefix
  | cons a p' ih =>
      intro l t hpre
      cases l with
      | nil =>
          rw [List.nil_append, List.cons_prefix_cons] at hpre
          exact absurd (hpre.1 ▸ List.mem_cons_self a p') hp
      | cons b l' =>
          rw [List.cons_append, List.cons_prefix_cons] at hpre
          exact List.cons_prefix_cons.mpr
            ⟨hpre.1, ih (fun h => hp (List.mem_cons_of_mem _ h)) l' t hpre.2⟩

lemma findLinkMatch_append_newline (l t : List Char) (h : findLinkMatch l = none) :
    findLinkMatch (l ++ '\n' :: t) = findLinkMatch t := by
  induction l with
  | nil => simp [findLinkMatch, linkMarker, List.isPrefixOf]
  | cons c cs ih =>
      rw [List.cons_append]
      by_cases hp : linkMarker.isPrefixOf (c :: cs)
      · have hlen : linkMarker.length ≤ (c :: cs).length :=
          (isPrefixOf_eq _ _ |>.mp hp).length_le
        have hp' : linkMarker.isPrefixOf (c :: (cs ++ '\n' :: t)) := by
          rw [isPrefixOf_eq, ← List.cons_append]
          exact (isPrefixOf_eq _ _ |>.mp hp).trans (List.prefix_append _ _)
        have hcap : (takeLineRest ((c :: cs).drop linkMarker.length)).isEmpty = true
            ∧ findLinkMatch cs = none := by
          by_cases hb : (takeLineRest ((c :: cs).drop linkMarker.length)).isEmpty
          · exact ⟨hb, by simpa [findLinkMatch_cons, hp, hb] using h⟩
          · exact absurd h (by simp [findLinkMatch_cons, hp, hb])
        have hdrop : (c :: (cs ++ '\n' :: t)).drop linkMarker.length
            = (c :: cs).drop linkMarker.length ++ '\n' :: t := by
          rw [← List.cons_append]; exact List.drop_append_of_le_length hlen
        rw [findLinkMatch_cons]
        simp only [hp', if_true, hdrop, takeLineRest_append_newline, hcap.1, if_pos]
        exact ih hcap.2
      · have hp' : ¬ linkMarker.isPrefixOf (c :: (cs ++ '\n' :: t)) := by
          intro hcon
          exact hp ((isPrefixOf_eq _ _).mpr
            (prefix_of_append_newline linkMarker (by decide) (c :: cs) t
              (by rw [isPrefixOf_eq] at hcon; rwa [List.cons_append])))
        have h' : findLinkMatch cs = none := by
          simpa [findLinkMatch_cons, hp] using h
        rw [findLinkMatch_cons]
        simp only [hp', if_false, if_neg]
        exact ih h'

lemma findLinkMatch_marker (x rest : List Char) (hx : x ≠ [])
    (hx2 : ∀ c ∈ x, c ≠ '\n' ∧ c ≠ '\r')
    (hrest : rest = [] ∨ ∃ t, rest = '\n' :: t) :
    findLinkMatch (linkMarker ++ (x ++ rest)) = some x := by
  have hpre : linkMarker.isPrefixOf (linkMarker ++ (x ++ rest)) = true :=
    (isPrefixOf_eq _ _).mpr (List.prefix_append _ _)
  have hdrop : (linkMarker ++ (x ++ rest)).drop linkMarker.length = x ++ rest :=
    List.drop_left _ _
  have hcap : takeLineRest (x ++ rest) = x := by
    rcases hrest with h | ⟨t, h⟩
    · subst h; rw [List.append_nil]; exact takeLineRest_of_no_terminator x hx2
    · subst h; rw [takeLineRest_append_newline]; exact takeLineRest_of_no_terminator x hx2
  have hshape : linkMarker ++ (x ++ rest)
      = 'L' :: ('i' :: 'n' :: 'k' :: ':' :: ' ' :: (x ++ rest)) := rfl
  rw [hshape, findLinkMatch_cons, ← hshape]
  simp [hpre, hdrop, hcap, List.isEmpty_iff, hx]

lemma findLinkMatch_joinLines_none (ls : List (List Char))
    (h : ∀ l ∈ ls, findLinkMatch l = none) :
    findLinkMatch (joinLines ls) = none := by
  induction ls with
  | nil => rfl
  | cons l ls ih =>
      cases ls with
      | nil => simpa [joinLines] using h l (by simp)
      | cons l' ls' =>
          rw [joinLines, findLinkMatch_append_newline _ _ (h l (by simp))]
          exact ih fun a ha => h a (List.mem_cons_of_mem _ ha)

lemma findLinkMatch_joinLines_first (ls1 : List (List Char)) (x : List Char)
    (ls2 : List (List Char)) (h1 : ∀ l ∈ ls1, findLinkMatch l = none) (hx : x ≠ [])
    (hx2 : ∀ c ∈ x, c ≠ '\n' ∧ c ≠ '\r') :
    findLinkMatch (joinLines (ls1 ++ (linkMarker ++ x) :: ls2)) = some x := by
  induction ls1 with
  | nil =>
      cases ls2 with
      | nil =>
          rw [List.nil_append]
          have hj : joinLines [linkMarker ++ x] = linkMarker ++ (x ++ []) := by
            simp [joinLines]
          rw [hj]
          exact findLinkMatch_marker x [] hx hx2 (Or.inl rfl)
      | cons l2 ls2' =>
          rw [List.nil_append]
          have hj : joinLines ((linkMarker ++ x) :: l2 :: ls2')
              = linkMarker ++ (x ++ '\n' :: joinLines (l2 :: ls2')) := by
            simp [joinLines]
          rw [hj]
          exact findLinkMatch_marker x _ hx hx2 (Or.inr ⟨_, rfl⟩)
  | cons l ls1' ih =>
      rw [List.cons_append]
      rcases he : ls1' ++ (linkMarker ++ x) :: ls2 with _ | ⟨a, t⟩
      · exact absurd he (by simp)
      · rw [joinLines, findLinkMatch_append_newline _ _ (h1 l (by simp)), ← he]
        exact ih fun a ha => h1 a (List.mem_cons_of_mem _ ha)

/-- Claim C1: for every text containing a line `Link: <url>` that is the first
occurrence of the pattern `Link: <rest-of-line>` (the claim itself stipulates
that only the first occurrence is matched), `extractDocumentLink` returns the
captured remainder of that line; and for every text none of whose lines
matches the pattern (`findLinkMatch` on the line is `none`, i.e. the regex
`/Link: (.+)/` does not match the line), it returns the empty string. -/
theorem extractDocumentLink_spec :
    (∀ (ls1 : List (List Char)) (x : List Char) (ls2 : List (List Char)),
        (∀ l ∈ ls1, findLinkMatch l = none) → x ≠ [] →
        (∀ c ∈ x, c ≠ '\n' ∧ c ≠ '\r') →
        extractDocumentLink (String.mk (joinLines (ls1 ++ (linkMarker ++ x) :: ls2)))
          = String.mk x)
    ∧ (∀ ls : List (List Char), (∀ l ∈ ls, findLinkMatch l = none) →
        extractDocumentLink (String.mk (joinLines ls)) = "") := by
  constructor
  · intro ls1 x ls2 h1 hx hx2
    unfold extractDocumentLink
    have hdata : (String.mk (joinLines (ls1 ++ (linkMarker ++ x) :: ls2))).data
        = joinLines (ls1 ++ (linkMarker ++ x) :: ls2) := rfl
    rw [hdata, findLinkMatch_joinLines_first ls1 x ls2 h1 hx hx2]
  · intro ls h
    unfold extractDocumentLink
    have hdata : (String.mk (joinLines ls)).data = joinLines ls := rfl
    rw [hdata, findLinkMatch_joinLines_none ls h]

/-- Witness for claim C1 at concrete inputs: the text
`"intro\nLink: https://x\ntail"` yields `"https://x"`, and the text
`"plain\ntext"` yields `""`. -/
theorem extractDocumentLink_spec_witness :
    extractDocumentLink (String.mk (joinLines
        [['i','n','t','r','o'],
         linkMarker ++ ['h','t','t','p','s',':','/','/','x'],
         ['t','a','i','l']]))
      = String.mk ['h','t','t','p','s',':','/','/','x']
    ∧ extractDocumentLink (String.mk (joinLines [['p','l','a','i','n'], ['t','e','x','t']]))
      = "" :=
  ⟨extractDocumentLink_spec.1 [['i','n','t','r','o']]
      ['h','t','t','p','s',':','/','/','x'] [['t','a','i','l']]
      (by decide) (by decide) (by decide),
   extractDocumentLink_spec.2 [['p','l','a','i','n'], ['t','e','x','t']] (by decide)⟩

/-- Claim C5: the reshaping step maps every match as follows: when the match
has metadata containing both `pageContent` and `docLink`, its metadata is
replaced by exactly the two-field object with those values (no extra keys);
when the metadata is absent or lacks either field, the match passes through
unmodified; and the whole response is the per-match map over the match list. -/
theorem formatPineconeResponse_spec :
    (∀ (m : MyScoredVector) (md : MatchMetadata), m.metadata = some md →
        md.pageContent.isSome = true → md.docLink.isSome = true →
        formatMatch m = { m with metadata := some { pageContent := md.pageContent,
                                                    docLink := md.docLink, extra := [] } })
    ∧ (∀ (m : MyScoredVector) (md : MatchMetadata), m.metadata = some md →
        (md.pageContent.isSome = false ∨ md.docLink.isSome = false) →
        formatMatch m = m)
    ∧ (∀ m : MyScoredVector, m.metadata = none → formatMatch m = m)
    ∧ (∀ r : QueryResponse,
        (formatPineconeResponse r).matches' = r.matches'.map fun ms => ms.map formatMatch) := by
  refine ⟨?_, ?_, ?_, ?_⟩
  · intro m md hmd hp hd
    simp [formatMatch, hmd, hp, hd]
  · intro m md hmd h
    rcases h with h | h <;> simp [formatMatch, hmd, h]
  · intro m hmd
    simp [formatMatch, hmd]
  · intro r
    rfl

/-- Witness for claim C5 at concrete matches: a match with full metadata is
normalised (extra keys dropped), a match lacking `docLink` passes through, and
a match without metadata passes through. -/
theorem formatPineconeResponse_spec_witness :
    formatMatch { id := "a", score := some 1, values := some [2],
                  metadata := some { pageContent := some "pc", docLink := some "dl",
                                     extra := [("loc", "l1")] } }
      = { id := "a", score := some 1, values := some [2],
          metadata := some { pageContent := some "pc", docLink := some "dl", extra := [] } }
    ∧ formatMatch { id := "b", score := none, values := none,
                    metadata := some { pageContent := some "pc", docLink := none,
                                       extra := [("loc", "l2")] } }
      = { id := "b", score := none, values := none,
          metadata := some { pageContent := some "pc", docLink := none,
                             extra := [("loc", "l2")] } }
    ∧ formatMatch { id := "c", score := none, values := none, metadata := none }
      = { id := "c", score := none, values := none, metadata := none } :=
  ⟨formatPineconeResponse_spec.1
      { id := "a", score := some 1, values := some [2],
        metadata := some { pageContent := some "pc", docLink := some "dl",
                           extra := [("loc", "l1")] } }
      { pageContent := some "pc", docLink := some "dl", extra := [("loc", "l1")] }
      rfl rfl rfl,
   formatPineconeResponse_spec.2.1
      { id := "b", score := none, values := none,
        metadata := some { pageContent := some "pc", docLink := none,
                           extra := [("loc", "l2")] } }
      { pageContent := some "pc", docLink := none, extra := [("loc", "l2")] }
      rfl (Or.inr rfl),
   formatPineconeResponse_spec.2.2.1
      { id := "c", score := none, values := none, metadata := none } rfl⟩

/-- Claim C9 (frame conditions of the reshaping): the namespace tag is copied,
the match list keeps its presence, length and order (the i-th output match is
the reshaped i-th input match), and reshaping never changes the fields other
than metadata: id, score and values are preserved on every match. -/
theorem formatPineconeResponse_frame :
    (∀ r : QueryResponse, (formatPineconeResponse r).ns = r.ns)
    ∧ (∀ r : QueryResponse, (formatPineconeResponse r).matches'.isSome = r.matches'.isSome)
    ∧ (∀ ms : List MyScoredVector, (ms.map formatMatch).length = ms.length)
    ∧ (∀ (ms : List MyScoredVector) (i : Nat),
        (ms.map formatMatch)[i]? = (ms[i]?).map formatMatch)
    ∧ (∀ m : MyScoredVector, (formatMatch m).id = m.id ∧ (formatMatch m).score = m.score
        ∧ (formatMatch m).values = m.values) := by
  refine ⟨fun r => rfl, ?_, ?_, ?_, ?_⟩
  · intro r
    cases h : r.matches' <;> simp [formatPineconeResponse, h]
  · intro ms
    exact List.length_map ms formatMatch
  · intro ms i
    exact List.getElem?_map formatMatch ms i
  · intro m
    rcases m with ⟨i, s, v, md⟩
    cases md with
    | none => exact ⟨rfl, rfl, rfl⟩
    | some md =>
        by_cases h : md.pageContent.isSome && md.docLink.isSome <;>
          simp [formatMatch, h]

/-- Claim C2: on a query response with zero matches (absent or empty match
list) the pipeline returns `none` (the defined no-result sentinel, a value,
not a thrown error) and makes zero completion-endpoint calls. -/
theorem queryLanguageModel_zeroMatches (chainCall : String → String → String)
    (queryResponse : QueryResponse) (question : String)
    (h : queryResponse.matches' = none ∨ queryResponse.matches' = some []) :
    queryLanguageModelWithPineconeResponse chainCall queryResponse question = (none, 0) := by
  rcases h with h | h <;>
    simp [queryLanguageModelWithPineconeResponse, h]

/-- Witness for claim C2 at concrete inputs: both the empty match list and
the absent match list produce `(none, 0)`. -/
theorem queryLanguageModel_zeroMatches_witness :
    queryLanguageModelWithPineconeResponse (fun _ _ => "answer")
        { matches' := some [], ns := some "n" } "q" = (none, 0)
    ∧ queryLanguageModelWithPineconeResponse (fun _ _ => "answer")
        { matches' := none, ns := none } "q" = (none, 0) :=
  ⟨queryLanguageModel_zeroMatches _ { matches' := some [], ns := some "n" } "q" (Or.inr rfl),
   queryLanguageModel_zeroMatches _ { matches' := none, ns := none } "q" (Or.inl rfl)⟩

/-- Claim C6: on a non-empty match list the pipeline returns an answer result
whose `documentLinks` has exactly one entry per match (same length), in the
same ranked order (the i-th link comes from the i-th match), with the empty
string wherever a match lacks a `docLink`; and the answer is the completion
of the space-joined `pageContent` values of those same matches, in order. -/
theorem queryLanguageModel_links_aligned (chainCall : String → String → String)
    (ns : Option String) (question : String) (ms : List MyScoredVector)
    (h : ms ≠ []) :
    ∃ ar : AnswerResult,
      queryLanguageModelWithPineconeResponse chainCall { matches' := some ms, ns := ns }
          question = (some ar, 1)
      ∧ ar.documentLinks.length = ms.length
      ∧ (∀ i : Nat, ar.documentLinks[i]?
            = (ms[i]?).map fun m => (m.metadata.bind MatchMetadata.docLink).getD "")
      ∧ (∀ i : Nat, (ms[i]?).bind (fun m => m.metadata.bind MatchMetadata.docLink) = none →
            i < ms.length → ar.documentLinks[i]? = some "")
      ∧ ar.answer = chainCall
          (String.intercalate " "
            (ms.map fun m => (m.metadata.bind MatchMetadata.pageContent).getD ""))
          (preparedQuestion question) := by
  refine ⟨{ answer := chainCall
              (String.intercalate " "
                (ms.map fun m => (m.metadata.bind MatchMetadata.pageContent).getD ""))
              (preparedQuestion question),
            documentLinks := ms.map fun m => (m.metadata.bind MatchMetadata.docLink).getD "" },
          ?_, ?_, ?_, ?_, rfl⟩
  · simp [queryLanguageModelWithPineconeResponse, h]
  · exact List.length_map ms _
  · intro i
    exact List.getElem?_map _ ms i
  · intro i hnone hi
    rw [List.getElem?_map _ ms i]
    rcases hm : ms[i]? with _ | m
    · exact absurd (List.getElem?_eq_getElem hi) (by simp [hm])
    · rw [hm] at hnone
      simp only [Option.some_bind] at hnone
      simp [hnone]

/-- Witness for claim C6 at a concrete two-match response in which the second
match lacks a `docLink`. -/
theorem queryLanguageModel_links_aligned_witness :
    ∃ ar : AnswerResult,
      queryLanguageModelWithPineconeResponse (fun c q => c ++ "|" ++ q)
          { matches' := some sampleMatches, ns := none } "q" = (some ar, 1)
      ∧ ar.documentLinks.length = sampleMatches.length
      ∧ (∀ i : Nat, ar.documentLinks[i]?
            = (sampleMatches[i]?).map fun m => (m.metadata.bind MatchMetadata.docLink).getD "")
      ∧ (∀ i : Nat,
            (sampleMatches[i]?).bind (fun m => m.metadata.bind MatchMetadata.docLink) = none →
            i < sampleMatches.length → ar.documentLinks[i]? = some "")
      ∧ ar.answer = (fun c q => c ++ "|" ++ q)
          (String.intercalate " "
            (sampleMatches.map fun m => (m.metadata.bind MatchMetadata.pageContent).getD ""))
          (preparedQuestion "q") :=
  queryLanguageModel_links_aligned (fun c q => c ++ "|" ++ q) none "q" sampleMatches
    (by simp [sampleMatches])

lemma upsertBatches_join_aux :
    ∀ (n : Nat) (vs : List Vector), vs.length ≤ n → (upsertBatches vs).flatten = vs := by
  intro n
  induction n with
  | zero =>
      intro vs h
      rw [List.eq_nil_of_length_eq_zero (Nat.le_zero.mp h)]
      simp [upsertBatches]
  | succ n ih =>
      intro vs h
      cases vs with
      | nil => simp [upsertBatches]
      | cons v vs' =>
          have hlen : ((v :: vs').drop 100).length ≤ n := by
            simp only [List.length_drop, List.length_cons]
            simp only [List.length_cons] at h
            omega
          simp only [upsertBatches, List.flatten_cons, ih _ hlen, List.take_append_drop]

lemma upsertBatches_length_aux :
    ∀ (n : Nat) (vs : List Vector), vs.length ≤ n →
      (upsertBatches vs).length = (vs.length + 99) / 100 := by
  intro n
  induction n with
  | zero =>
      intro vs h
      rw [List.eq_nil_of_length_eq_zero (Nat.le_zero.mp h)]
      simp [upsertBatches]
  | succ n ih =>
      intro vs h
      cases vs with
      | nil => simp [upsertBatches]
      | cons v vs' =>
          have hlen : ((v :: vs').drop 100).length ≤ n := by
            simp only [List.length_drop, List.length_cons]
            simp only [List.length_cons] at h
            omega
          simp only [upsertBatches, List.length_cons, ih _ hlen, List.length_drop]
          omega

lemma upsertBatches_bound_aux :
    ∀ (n : Nat) (vs : List Vector), vs.length ≤ n →
      ∀ b ∈ upsertBatches vs, b.length ≤ 100 := by
  intro n
  induction n with
  | zero =>
      intro vs h
      rw [List.eq_nil_of_length_eq_zero (Nat.le_zero.mp h)]
      intro b hb
      simp [upsertBatches] at hb
  | succ n ih =>
      intro vs h
      cases vs with
      | nil => intro b hb; simp [upsertBatches] at hb
      | cons v vs' =>
          have hlen : ((v :: vs').drop 100).length ≤ n := by
            simp only [List.length_drop, List.length_cons]
            simp only [List.length_cons] at h
            omega
          intro b hb
          simp only [upsertBatches, List.mem_cons] at hb
          rcases hb with hb | hb
          · subst hb
            simp only [List.length_take]
            exact Nat.min_le_left 100 (v :: vs').length
          · exact ih _ hlen b hb

/-- Claim C4: the batched upsert issues exactly `ceil(L/100)` calls, written
`(L + 99) / 100` in natural-number arithmetic; every batch has at most 100
vectors (the last one may be smaller); and the concatenation of the batches
in issue order is exactly the input list (so the batches partition it). -/
theorem upsertVectors_batches (vectors : List Vector) :
    (upsertBatches vectors).length = (vectors.length + 99) / 100
    ∧ (∀ b ∈ upsertBatches vectors, b.length ≤ 100)
    ∧ (upsertBatches vectors).flatten = vectors :=
  ⟨upsertBatches_length_aux vectors.length vectors le_rfl,
   upsertBatches_bound_aux vectors.length vectors le_rfl,
   upsertBatches_join_aux vectors.length vectors le_rfl⟩

/-- Witness for claim C4 at a concrete two-vector list: the single issued
batch is the whole list and respects the 100-vector bound. -/
theorem upsertVectors_batches_witness :
    [sampleVectorA, sampleVectorB] ∈ upsertBatches [sampleVectorA, sampleVectorB]
    ∧ ([sampleVectorA, sampleVectorB] : List Vector).length ≤ 100 := by
  have ht : ([sampleVectorA, sampleVectorB] : List Vector).take 100
      = [sampleVectorA, sampleVectorB] := List.take_of_length_le (by norm_num)
  have hd : ([sampleVectorA, sampleVectorB] : List Vector).drop 100 = [] :=
    List.drop_of_length_le (by norm_num)
  have hmem : [sampleVectorA, sampleVectorB] ∈ upsertBatches [sampleVectorA, sampleVectorB] := by
    simp [upsertBatches, ht, hd]
  exact ⟨hmem, (upsertVectors_batches [sampleVectorA, sampleVectorB]).2.1 _ hmem⟩

/-- Claim C8: the i-th vector record built during ingestion has id
`"<sourcePath>_<i>"`, values equal to the i-th chunk's embedding, and
metadata carrying the stringified chunk location, the full chunk text as
`pageContent`, the source path, and the extracted document link. -/
theorem processDocument_vectorRecords (stringifyLoc : ChunkLoc → String)
    (txtPath text : String) (chunks : List Chunk) (embeddingsArrays : List (List Int))
    (i : Nat) (ci : Chunk) (ei : List Int)
    (hc : chunks[i]? = some ci) (he : embeddingsArrays[i]? = some ei) :
    (processDocumentVectors stringifyLoc txtPath text chunks embeddingsArrays)[i]?
      = some { id := txtPath ++ "_" ++ toString i, values := ei,
               metadata := { loc := stringifyLoc ci.metadata.loc,
                             pageContent := ci.pageContent,
                             txtPath := txtPath,
                             docLink := extractDocumentLink text } } := by
  unfold processDocumentVectors
  rw [List.getElem?_map, List.getElem?_enum, hc]
  simp [List.getD_eq_getElem?_getD, he]

/-- Witness for claim C8: a one-chunk document whose text carries a
`Link: https://d` line produces the expected single vector record. -/
theorem processDocument_vectorRecords_witness :
    (processDocumentVectors (fun loc => toString loc.lineFrom ++ "-" ++ toString loc.lineTo)
        "doc.txt" (String.mk (joinLines [linkMarker ++ ['h','t','t','p','s',':','/','/','d']]))
        [{ pageContent := "hello world", metadata := { loc := { lineFrom := 1, lineTo := 2 } } }]
        [[5, 6, 7]])[0]?
      = some { id := "doc.txt" ++ "_" ++ toString 0, values := [5, 6, 7],
               metadata := { loc := "1-2",
                             pageContent := "hello world",
                             txtPath := "doc.txt",
                             docLink := extractDocumentLink (String.mk (joinLines
                               [linkMarker ++ ['h','t','t','p','s',':','/','/','d']])) } } :=
  processDocument_vectorRecords _ "doc.txt" _
    [{ pageContent := "hello world", metadata := { loc := { lineFrom := 1, lineTo := 2 } } }]
    [[5, 6, 7]] 0
    { pageContent := "hello world", metadata := { loc := { lineFrom := 1, lineTo := 2 } } }
    [5, 6, 7] rfl rfl

lemma setDedup_sublist_aux :
    ∀ (n : Nat) (l : List String), l.length ≤ n → List.Sublist (setDedup l) l := by
  intro n
  induction n with
  | zero =>
      intro l h
      rw [List.eq_nil_of_length_eq_zero (Nat.le_zero.mp h)]
      simp [setDedup]
  | succ n ih =>
      intro l h
      cases l with
      | nil => simp [setDedup]
      | cons x xs =>
          have hlf : (xs.filter fun y => y != x).length ≤ n := by
            simp only [List.length_cons] at h
            exact le_trans (List.length_filter_le _ _) (by omega)
          simp only [setDedup]
          exact List.cons_sublist_cons.mpr
            ((ih _ hlf).trans (List.filter_sublist xs))

lemma setDedup_mem_aux :
    ∀ (n : Nat) (l : List String), l.length ≤ n →
      ∀ a : String, a ∈ setDedup l ↔ a ∈ l := by
  intro n
  induction n with
  | zero =>
      intro l h a
      rw [List.eq_nil_of_length_eq_zero (Nat.le_zero.mp h)]
      simp [setDedup]
  | succ n ih =>
      intro l h a
      cases l with
      | nil => simp [setDedup]
      | cons x xs =>
          have hlf : (xs.filter fun y => y != x).length ≤ n := by
            simp only [List.length_cons] at h
            exact le_trans (List.length_filter_le _ _) (by omega)
          simp only [setDedup, List.mem_cons, ih _ hlf, List.mem_filter, bne_iff_ne]
          constructor
          · rintro (rfl | ⟨hmem, _⟩)
            · exact Or.inl rfl
            · exact Or.inr hmem
          · rintro (rfl | hmem)
            · exact Or.inl rfl
            · by_cases hax : a = x
              · exact Or.inl hax
              · exact Or.inr ⟨hmem, hax⟩

lemma setDedup_nodup_aux :
    ∀ (n : Nat) (l : List String), l.length ≤ n → (setDedup l).Nodup := by
  intro n
  induction n with
  | zero =>
      intro l h
      rw [List.eq_nil_of_length_eq_zero (Nat.le_zero.mp h)]
      simp [setDedup]
  | succ n ih =>
      intro l h
      cases l with
      | nil => simp [setDedup]
      | cons x xs =>
          have hlf : (xs.filter fun y => y != x).length ≤ n := by
            simp only [List.length_cons] at h
            exact le_trans (List.length_filter_le _ _) (by omega)
          simp only [setDedup, List.nodup_cons]
          refine ⟨fun hmem => ?_, ih _ hlf⟩
          have := (setDedup_mem_aux n _ hlf x).mp hmem
          rw [List.mem_filter] at this
          simp at this

lemma takeWhile_filter_comm (p q : String → Bool)
    (hpq : ∀ a, q a = false → p a = true) (l : List String) :
    (l.filter p).takeWhile q = (l.takeWhile q).filter p := by
  induction l with
  | nil => rfl
  | cons c cs ih =>
      cases hp : p c
      · cases hq : q c
        · exact absurd (hpq c hq) (by simp [hp])
        · simp [List.filter_cons, List.takeWhile_cons, hp, hq, ih]
      · cases hq : q c
        · simp [List.filter_cons, List.takeWhile_cons, hp, hq]
        · simp [List.filter_cons, List.takeWhile_cons, hp, hq, ih]

lemma setDedup_firstWins_aux :
    ∀ (n : Nat) (l : List String), l.length ≤ n → ∀ x ∈ l,
      (setDedup l).takeWhile (fun y => y != x)
        = setDedup (l.takeWhile fun y => y != x) := by
  intro n
  induction n with
  | zero =>
      intro l h x hx
      rw [List.eq_nil_of_length_eq_zero (Nat.le_zero.mp h)] at hx
      simp at hx
  | succ n ih =>
      intro l h x hx
      cases l with
      | nil => simp at hx
      | cons y ys =>
          by_cases hxy : y = x
          · subst hxy
            simp [setDedup, List.takeWhile_cons]
          · have hyx : (y != x) = true := bne_iff_ne.mpr hxy
            have hxys : x ∈ ys :=
              (List.mem_cons.mp hx).resolve_left fun hcon => hxy hcon.symm
            have hxf : x ∈ ys.filter (fun z => z != y) :=
              List.mem_filter.mpr ⟨hxys, bne_iff_ne.mpr fun hcon => hxy hcon.symm⟩
            have hlf : (ys.filter fun z => z != y).length ≤ n := by
              simp only [List.length_cons] at h
              exact le_trans (List.length_filter_le _ _) (by omega)
            have hcomm : ((ys.filter fun z => z != y).takeWhile fun z => z != x)
                = ((ys.takeWhile fun z => z != x).filter fun z => z != y) := by
              refine takeWhile_filter_comm _ _ (fun a ha => ?_) ys
              have haeq : a = x := by simpa using ha
              subst haeq
              exact bne_iff_ne.mpr fun hcon => hxy hcon.symm
            calc (setDedup (y :: ys)).takeWhile (fun z => z != x)
                = (y :: setDedup (ys.filter fun z => z != y)).takeWhile
                    (fun z => z != x) := by
                  simp only [setDedup]
              _ = y :: (setDedup (ys.filter fun z => z != y)).takeWhile
                    (fun z => z != x) := by
                  simp [List.takeWhile_cons, hyx]
              _ = y :: setDedup ((ys.filter fun z => z != y).takeWhile
                    fun z => z != x) := by
                  rw [ih _ hlf x hxf]
              _ = y :: setDedup ((ys.takeWhile fun z => z != x).filter
                    fun z => z != y) := by
                  rw [hcomm]
              _ = setDedup (y :: ys.takeWhile fun z => z != x) := by
                  simp only [setDedup]
              _ = setDedup ((y :: ys).takeWhile fun z => z != x) := by
                  simp [List.takeWhile_cons, hyx]

/-- Claim C3: the command handler deduplicates the document links
order-preservingly with the first occurrence winning, then takes the first 3
distinct links; in particular `["a","b","a","c","b"]` yields exactly
`["a","b","c"]` and renders as the three `**Link N:** <url>` lines.  The
general conjuncts: the handler's list is the dedup followed by `take 3`; the
dedup is a sublist (order-preserving), duplicate-free and membership
preserving; and the elements before the first occurrence of any listed `x`
are exactly the dedup of the original prefix before `x` (first occurrence
wins). -/
theorem handleRead_dedup_top3 :
    topThreeLinks ["a", "b", "a", "c", "b"] = ["a", "b", "c"]
    ∧ renderLinksString (topThreeLinks ["a", "b", "a", "c", "b"])
        = "**Link 1:** <a>\n**Link 2:** <b>\n**Link 3:** <c>"
    ∧ (∀ ls : List String, topThreeLinks ls = (setDedup ls).take 3)
    ∧ (∀ ls : List String, List.Sublist (setDedup ls) ls)
    ∧ (∀ ls : List String, (setDedup ls).Nodup)
    ∧ (∀ (ls : List String) (a : String), a ∈ setDedup ls ↔ a ∈ ls)
    ∧ (∀ (ls : List String) (x : String), x ∈ ls →
        (setDedup ls).takeWhile (fun y => y != x)
          = setDedup (ls.takeWhile fun y => y != x)) := by
  have hsd : setDedup ["a", "b", "a", "c", "b"] = ["a", "b", "c"] := by
    simp +decide [setDedup, List.filter]
  have h1 : topThreeLinks ["a", "b", "a", "c", "b"] = ["a", "b", "c"] := by
    unfold topThreeLinks
    rw [hsd]
    rfl
  refine ⟨h1, ?_, fun ls => rfl, fun ls => setDedup_sublist_aux ls.length ls le_rfl,
          fun ls => setDedup_nodup_aux ls.length ls le_rfl,
          fun ls a => setDedup_mem_aux ls.length ls le_rfl a,
          fun ls x hx => setDedup_firstWins_aux ls.length ls le_rfl x hx⟩
  rw [h1]
  rfl

/-- Witness for claim C3 at a concrete input for the hypothesis-bearing
first-occurrence conjunct. -/
theorem handleRead_dedup_top3_witness :
    ("b" ∈ (["a", "b"] : List String))
    ∧ (setDedup ["a", "b"]).takeWhile (fun y => y != "b")
        = setDedup ((["a", "b"] : List String).takeWhile fun y => y != "b") := by
  have hmem : "b" ∈ (["a", "b"] : List String) := by simp
  exact ⟨hmem, handleRead_dedup_top3.2.2.2.2.2.2 ["a", "b"] "b" hmem⟩

/-- Claim C7: when the pipeline returns the no-result sentinel the handler
sends exactly the fixed no-results message; when any step throws, it sends
exactly the fixed generic error message and logs the underlying error; and
the message sent in the error case does not depend on the error, so no raw
exception detail reaches the user. -/
theorem handleRead_messages :
    handleReadCommand (Except.ok none) = (["No results found for your query."], [])
    ∧ (∀ e : String, handleReadCommand (Except.error e)
        = (["An error occurred while processing your request."], ["Error: " ++ e]))
    ∧ (∀ e e' : String,
        (handleReadCommand (Except.error e)).1
          = (handleReadCommand (Except.error e')).1) :=
  ⟨rfl, fun _ => rfl, fun _ _ => rfl⟩

/-- Claim C10: the handler does not filter empty-string document links: an
empty string survives deduplication as one distinct element, can occupy one
of the three rendered slots (here pushing `"z"` out), and is rendered as the
line `**Link N:** <>`. -/
theorem emptyLink_kept :
    (∀ ls : List String, "" ∈ ls → "" ∈ setDedup ls)
    ∧ topThreeLinks ["", "x", "", "y", "z"] = ["", "x", "y"]
    ∧ renderLinksString ["", "x", "y"]
        = "**Link 1:** <>\n**Link 2:** <x>\n**Link 3:** <y>"
    ∧ (handleReadCommand (Except.ok (some
          { answer := "A", documentLinks := ["", "x", "", "y", "z"] }))).1
        = ["\n**Answer:**\n A\n**Useful resources:**\n**Link 1:** <>\n**Link 2:** <x>\n**Link 3:** <y>"] := by
  have hsd : setDedup ["", "x", "", "y", "z"] = ["", "x", "y", "z"] := by
    simp +decide [setDedup, List.filter]
  have h1 : topThreeLinks ["", "x", "", "y", "z"] = ["", "x", "y"] := by
    unfold topThreeLinks
    rw [hsd]
    rfl
  refine ⟨fun ls h => (setDedup_mem_aux ls.length ls le_rfl "").mpr h, h1, rfl, ?_⟩
  show ["\n**Answer:**\n " ++ "A" ++ "\n**Useful resources:**\n"
      ++ renderLinksString (topThreeLinks ["", "x", "", "y", "z"])] = _
  rw [h1]
  rfl

/-- Witness for claim C10: the empty string is in the dedup of `[""]`. -/
theorem emptyLink_kept_witness :
    ("" ∈ ([""] : List String)) ∧ "" ∈ setDedup [""] := by
  have hmem : "" ∈ ([""] : List String) := by simp
  exact ⟨hmem, emptyLink_kept.1 [""] hmem⟩

end Morpho
